import Mathlib

/-!
Verification of the Commit Pool subsystem of lisk-sdk against its
natural-language specification.

The CommitPool implementation file is not present in the repository snapshot;
only its Jest test suite is.  Every operational definition below is therefore
modelled from the specification (spec.md), cross-checked against the behaviour
pinned by the test suite.  Heights, addresses, BLS keys, block ids and
signatures are abstracted to natural numbers; a BLS aggregate signature is
abstracted to the multiset of the aggregated single signatures (faithful to
any commutative, associative aggregation primitive such as BLS point
addition).  Fallible operations return `Except CommitError`.
-/

namespace Lisk

/-- Modelled from the spec: protocol constant `COMMIT_RANGE_STORED = 50` (§6). -/
def COMMIT_RANGE_STORED : Nat := 50

/-- Modelled from the spec: a `SingleCommit` record (§3); byte fields abstracted to `Nat`. -/
structure SingleCommit where
  blockID : Nat
  height : Nat
  validatorAddress : Nat
  certificateSignature : Nat
  deriving DecidableEq, Repr

/-- Uniqueness key of a commit: `(height, validatorAddress)` (§3). -/
def sameKey (a b : SingleCommit) : Bool :=
  a.height == b.height && a.validatorAddress == b.validatorAddress

/-- Modelled from the spec: a `Validator` read from the BFT oracle (§3). -/
structure Validator where
  address : Nat
  bftWeight : Nat
  blsKey : Nat
  deriving DecidableEq, Repr

/-- Modelled from the spec: `BFTParameters` at a height (§3). -/
structure BFTParameters where
  certificateThreshold : Nat
  validators : List Validator
  deriving Repr

/-- Modelled from the spec: a block header, restricted to the fields the pool
reads (§6); `aggregateCommitHeight` is the `aggregateCommit.height` field. -/
structure BlockHeader where
  id : Nat
  height : Nat
  timestamp : Nat
  stateRoot : Nat
  validatorsHash : Nat
  aggregateCommitHeight : Nat
  deriving DecidableEq, Repr

/-- Modelled from the spec: a `Certificate` derived from a block header (§3). -/
structure Certificate where
  blockID : Nat
  height : Nat
  timestamp : Nat
  stateRoot : Nat
  validatorsHash : Nat
  deriving DecidableEq, Repr

/-- Modelled from the spec: `computeCertificateFromBlockHeader` projects the
five certificate fields out of a header (§4.2). -/
def computeCertificateFromBlockHeader (h : BlockHeader) : Certificate :=
  { blockID := h.id
    height := h.height
    timestamp := h.timestamp
    stateRoot := h.stateRoot
    validatorsHash := h.validatorsHash }

/-- Modelled from the spec: an `AggregateCommit` (§3).  The aggregated BLS
signature is abstracted to the multiset of aggregated single signatures; the
empty multiset stands for the empty buffer. -/
structure AggregateCommit where
  height : Nat
  aggregationBits : List Bool
  certificateSignature : Multiset Nat
  deriving DecidableEq

/-- Modelled from the spec: the error taxonomy of §7. -/
inductive CommitError where
  | notFound
  | validatorNotActive
  | signatureInvalid
  | noSingleCommit
  | noBLSKeyForValidator
  deriving DecidableEq, Repr

/-- Modelled from the spec: the external collaborators (§6) — chain access,
the BFT oracle and the BLS verification primitives — as one read-only
environment record.  `getNextHeightBFTParameters` returning `none` models the
`BFTParameterNotFound` raise. -/
structure Env where
  finalizedHeight : Nat
  headers : Nat → Option BlockHeader
  maxHeightCertified : Nat
  maxHeightPrecommitted : Nat
  getBFTParameters : Nat → BFTParameters
  existBFTParameters : Nat → Bool
  getNextHeightBFTParameters : Nat → Option Nat
  getValidatorBlsKey : Nat → Nat → Nat
  currentValidators : List Nat
  verifySingleSig : Nat → Nat → Certificate → Bool
  verifyAggSig : List Nat → Multiset Nat → Certificate → Bool

namespace CommitList

/-- Modelled from the spec: commit-index membership test by
`(height, validatorAddress)` (§4.1). -/
def exists_ (l : List SingleCommit) (c : SingleCommit) : Bool :=
  l.any (fun x => sameKey x c)

/-- Modelled from the spec: idempotent `add` on a commit index (§4.1). -/
def add (l : List SingleCommit) (c : SingleCommit) : List SingleCommit :=
  if exists_ l c then l else l ++ [c]

/-- Modelled from the spec: `deleteSingle` on a commit index (§4.1). -/
def deleteSingle (l : List SingleCommit) (c : SingleCommit) : List SingleCommit :=
  l.filter (fun x => !sameKey x c)

/-- Modelled from the spec: `getByHeight` on a commit index (§4.1). -/
def getByHeight (l : List SingleCommit) (h : Nat) : List SingleCommit :=
  l.filter (fun c => c.height == h)

/-- Insert a height into an ascending list of heights. -/
def insertAsc (x : Nat) : List Nat → List Nat
  | [] => [x]
  | y :: ys => if x ≤ y then x :: y :: ys else y :: insertAsc x ys

/-- Sort a list of heights ascending (insertion sort). -/
def sortAsc (l : List Nat) : List Nat := l.foldr insertAsc []

/-- The distinct heights present in a commit index. -/
def heightsOf (l : List SingleCommit) : List Nat := (l.map (fun c => c.height)).dedup

/-- Flatten an index along a list of heights, preserving per-height
insertion order. -/
def flattenByHeights (l : List SingleCommit) (hs : List Nat) : List SingleCommit :=
  hs.foldr (fun h acc => getByHeight l h ++ acc) []

/-- Modelled from the spec: `getAll(ASC)` — commits sorted by height
ascending, ties in insertion order (§4.1). -/
def getAllAsc (l : List SingleCommit) : List SingleCommit :=
  flattenByHeights l (sortAsc (heightsOf l))

/-- Modelled from the spec: `getAll(DSC)` — commits sorted by height
descending, ties in insertion order (§4.1). -/
def getAllDsc (l : List SingleCommit) : List SingleCommit :=
  flattenByHeights l (sortAsc (heightsOf l)).reverse

end CommitList

/-- Modelled from the spec: the pool state — the three commit indices (§3).
`nonGossipedCommitsLocal` is the `local` index. -/
structure CommitPool where
  nonGossipedCommits : List SingleCommit
  nonGossipedCommitsLocal : List SingleCommit
  gossipedCommits : List SingleCommit
  deriving Repr

/-- A commit is known to the pool when any of the three indices contains its
`(height, validatorAddress)` key (§4.3 (b), §4.4). -/
def commitKnown (pool : CommitPool) (c : SingleCommit) : Bool :=
  CommitList.exists_ pool.gossipedCommits c ||
  CommitList.exists_ pool.nonGossipedCommits c ||
  CommitList.exists_ pool.nonGossipedCommitsLocal c

/-- Modelled from the spec: `addCommit` (§4.4) — no-op when the commit is
already in any index, otherwise insert into `local` or `nonGossiped`. -/
def addCommit (pool : CommitPool) (c : SingleCommit) (localFlag : Bool) : CommitPool :=
  if commitKnown pool c then pool
  else if localFlag then
    { pool with nonGossipedCommitsLocal := CommitList.add pool.nonGossipedCommitsLocal c }
  else
    { pool with nonGossipedCommits := CommitList.add pool.nonGossipedCommits c }

/-- Modelled from the spec: `getCommitsByHeight` (§4.4) — the concatenation
`local ++ nonGossiped ++ gossiped` at one height. -/
def getCommitsByHeight (pool : CommitPool) (h : Nat) : List SingleCommit :=
  CommitList.getByHeight pool.nonGossipedCommitsLocal h ++
  CommitList.getByHeight pool.nonGossipedCommits h ++
  CommitList.getByHeight pool.gossipedCommits h

/-- Modelled from the spec: `getAllCommits` (§4.4) — the union across the
three indices in ascending height order. -/
def getAllCommits (pool : CommitPool) : List SingleCommit :=
  CommitList.getAllAsc
    (pool.nonGossipedCommitsLocal ++ pool.nonGossipedCommits ++ pool.gossipedCommits)

/-- Modelled from the spec: `maxRemovalHeight` (§4.5 Step 1) — the
`aggregateCommit.height` of the header at `chain.finalizedHeight`; raises
`NotFound` when the header is missing. -/
def getMaxRemovalHeight (env : Env) : Except CommitError Nat :=
  match env.headers env.finalizedHeight with
  | none => .error .notFound
  | some hd => .ok hd.aggregateCommitHeight

/-- Modelled from the spec: the attention window test of §4.3 (d):
`maxHeightCertified − COMMIT_RANGE_STORED ≤ h ≤ maxHeightPrecommitted`. -/
def inCommitRange (env : Env) (h : Nat) : Bool :=
  decide (env.maxHeightCertified - COMMIT_RANGE_STORED ≤ h) &&
  decide (h ≤ env.maxHeightPrecommitted)

/-- Modelled from the spec: `validateCommit` (§4.3), checks (a)–(g) in order;
membership and signature failures raise, the other rejections return false. -/
def validateCommit (env : Env) (pool : CommitPool) (c : SingleCommit) :
    Except CommitError Bool :=
  match env.headers c.height with
  | none => .ok false
  | some header =>
    if header.id = c.blockID then
      if commitKnown pool c then .ok false
      else
        match getMaxRemovalHeight env with
        | .error e => .error e
        | .ok r =>
          if c.height ≤ r then .ok false
          else if !inCommitRange env c.height && !env.existBFTParameters (c.height + 1) then
            .ok false
          else
            match (env.getBFTParameters c.height).validators.find?
                (fun v => v.address == c.validatorAddress) with
            | none => .error .validatorNotActive
            | some _ =>
              if env.verifySingleSig (env.getValidatorBlsKey c.validatorAddress c.height)
                  c.certificateSignature (computeCertificateFromBlockHeader header) then
                .ok true
              else .error .signatureInvalid
    else .ok false

/-- Last-write-wins lookup of a validator BLS key by address, as built by the
aggregator from the validator list of the height (§4.6 step 2). -/
def addrToBlsKey (vs : List Validator) (a : Nat) : Option Nat :=
  (vs.reverse.find? (fun v => v.address == a)).map (fun v => v.blsKey)

/-- Resolve one commit to its `(blsKey, signature)` pair (§4.6 step 3). -/
def resolvePair (vs : List Validator) (c : SingleCommit) : Option (Nat × Nat) :=
  (addrToBlsKey vs c.validatorAddress).map (fun k => (k, c.certificateSignature))

/-- Resolve every commit to its pair, raising `NoBLSKeyForValidator` on the
first unresolvable address (§4.6 step 2). -/
def resolvePairs (vs : List Validator) : List SingleCommit → Except CommitError (List (Nat × Nat))
  | [] => .ok []
  | c :: cs =>
    match resolvePair vs c with
    | none => .error .noBLSKeyForValidator
    | some p =>
      match resolvePairs vs cs with
      | .error e => .error e
      | .ok ps => .ok (p :: ps)

/-- Modelled from the spec: the BLS aggregation primitive (§4.6 step 4),
abstracted: the bitmap marks which keys of the key list occur among the
pairs, and the aggregate signature is the multiset of the pair signatures
(faithful to commutative aggregation). -/
def createAggSig (keys : List Nat) (pairs : List (Nat × Nat)) : List Bool × Multiset Nat :=
  (keys.map (fun k => pairs.any (fun p => p.1 == k)),
   ((pairs.map Prod.snd : List Nat) : Multiset Nat))

/-- Modelled from the spec: `aggregateSingleCommits` (§4.6).  The key list
passed to the aggregation primitive is sorted lexicographically ascending;
the pair list is passed in input order, as pinned by the repository test
`should call validator keys in lexicographical order`. -/
def aggregateSingleCommits (env : Env) (singles : List SingleCommit) :
    Except CommitError AggregateCommit :=
  match singles with
  | [] => .error .noSingleCommit
  | c0 :: rest =>
    let params := env.getBFTParameters c0.height
    match resolvePairs params.validators (c0 :: rest) with
    | .error e => .error e
    | .ok pairs =>
      let keys := CommitList.sortAsc (params.validators.map (fun v => v.blsKey))
      let r := createAggSig keys pairs
      .ok { height := c0.height, aggregationBits := r.1, certificateSignature := r.2 }

/-- Insert a validator into a list ascending by BLS key. -/
def insertValAsc (v : Validator) : List Validator → List Validator
  | [] => [v]
  | w :: ws => if v.blsKey ≤ w.blsKey then v :: w :: ws else w :: insertValAsc v ws

/-- Validators in lexicographically ascending BLS-key order — the order the
aggregation bitmap is defined over (§3). -/
def sortValidatorsByBlsKey (vs : List Validator) : List Validator :=
  vs.foldr insertValAsc []

/-- The validators selected by an aggregation bitmap (§4.7). -/
def selectedByBits (vs : List Validator) (bits : List Bool) : List Validator :=
  ((sortValidatorsByBlsKey vs).zip bits).filterMap
    (fun vb => if vb.2 then some vb.1 else none)

/-- Modelled from the spec: the final stage of `verifyAggregateCommit` (§4.7):
verify the aggregated BLS signature over the certificate of the header at the
aggregate height against the keys selected by the bitmap, and check that
their summed `bftWeight` reaches `certificateThreshold`. -/
def verifyAggSigWeight (env : Env) (ag : AggregateCommit) : Except CommitError Bool :=
  match env.headers ag.height with
  | none => .error .notFound
  | some hd =>
    let params := env.getBFTParameters ag.height
    let sel := selectedByBits params.validators ag.aggregationBits
    .ok (decide (params.certificateThreshold ≤ (sel.map (fun v => v.bftWeight)).sum) &&
      env.verifyAggSig (sel.map (fun v => v.blsKey)) ag.certificateSignature
        (computeCertificateFromBlockHeader hd))

/-- Modelled from the spec: `verifyAggregateCommit` (§4.7) — the false-returning
precondition checks, then the signature-and-weight verification.  A missing
next-BFT-parameter height (`BFTParameterNotFound`) is recovered as "no
upcoming change" (§7). -/
def verifyAggregateCommit (env : Env) (ag : AggregateCommit) : Except CommitError Bool :=
  if ag.certificateSignature = 0 ∨ ag.aggregationBits = [] then .ok false
  else if ag.height ≤ env.maxHeightCertified then .ok false
  else if env.maxHeightPrecommitted < ag.height then .ok false
  else
    match env.getNextHeightBFTParameters (env.maxHeightCertified + 1) with
    | some hn => if hn - 1 < ag.height then .ok false else verifyAggSigWeight env ag
    | none => verifyAggSigWeight env ag

/-- Modelled from the spec: the summed `bftWeight` of the validators whose
address appears among the commits of a height (§4.7). -/
def aggregateWeight (params : BFTParameters) (commits : List SingleCommit) : Nat :=
  ((params.validators.filter
      (fun v => commits.any (fun c => c.validatorAddress == v.address))).map
    (fun v => v.bftWeight)).sum

/-- Modelled from the spec: `heightBound := min(heightNextBFTParameters − 1,
maxHeightPrecommitted)`, with a missing next height treated as no upcoming
parameter change (§4.7). -/
def heightBound (env : Env) : Nat :=
  match env.getNextHeightBFTParameters (env.maxHeightCertified + 1) with
  | some hn => min (hn - 1) env.maxHeightPrecommitted
  | none => env.maxHeightPrecommitted

/-- The sentinel aggregate `{height: maxHeightCertified, bits: empty, sig: empty}` (§4.7). -/
def sentinelAggregate (mhc : Nat) : AggregateCommit :=
  { height := mhc, aggregationBits := [], certificateSignature := 0 }

/-- Modelled from the spec: the walk of `selectAggregateCommit` from
`heightBound` down to `maxHeightCertified + 1` (§4.7); `none` means no height
reached threshold weight. -/
def selectLoop (env : Env) (pool : CommitPool) (params : BFTParameters) (mhc : Nat) :
    Nat → Except CommitError (Option AggregateCommit)
  | h =>
    if hlt : mhc < h then
      if params.certificateThreshold ≤ aggregateWeight params (getCommitsByHeight pool h) then
        (aggregateSingleCommits env (getCommitsByHeight pool h)).map Option.some
      else selectLoop env pool params mhc (h - 1)
    else .ok none
termination_by h => h
decreasing_by omega

/-- Modelled from the spec: `selectAggregateCommit` (§4.7) — BFT parameters
are fetched at `heightBound`; the sentinel is returned when no height in
`(maxHeightCertified, heightBound]` reaches threshold weight. -/
def selectAggregateCommit (env : Env) (pool : CommitPool) : Except CommitError AggregateCommit :=
  match selectLoop env pool (env.getBFTParameters (heightBound env))
      env.maxHeightCertified (heightBound env) with
  | .error e => .error e
  | .ok none => .ok (sentinelAggregate env.maxHeightCertified)
  | .ok (some ag) => .ok ag

/-- Height-based eviction of §4.5 Step 2: keep commits strictly above the
removal height. -/
def jobEvict (r : Nat) (l : List SingleCommit) : List SingleCommit :=
  l.filter (fun c => decide (r < c.height))

/-- The admissibility re-check of §4.5 Step 3 (condition (d) of §4.3). -/
def jobFilterKeep (env : Env) (c : SingleCommit) : Bool :=
  inCommitRange env c.height || env.existBFTParameters (c.height + 1)

/-- Modelled from the spec: the pool state after eviction (§4.5 Step 2) and
the admissibility re-check (§4.5 Step 3).  The repository test suite pins
that the re-check is applied to the gossiped index as well, not only to
`nonGossiped`. -/
def jobSurvivors (env : Env) (r : Nat) (pool : CommitPool) : CommitPool :=
  { nonGossipedCommits := (jobEvict r pool.nonGossipedCommits).filter (jobFilterKeep env)
    nonGossipedCommitsLocal :=
      (jobEvict r pool.nonGossipedCommitsLocal).filter (jobFilterKeep env)
    gossipedCommits := (jobEvict r pool.gossipedCommits).filter (jobFilterKeep env) }

/-- One step of the bounded gossip selection loop (§4.5 Step 5): stop at the
cap, suppress duplicates by commit identity, otherwise append. -/
def selectStep (M : Nat) (acc : List SingleCommit) (c : SingleCommit) : List SingleCommit :=
  if M ≤ acc.length then acc
  else if c ∈ acc then acc
  else acc ++ [c]

/-- The gossip selection loop over a candidate list (§4.5 Step 5). -/
def selectCommits (M : Nat) (candidates : List SingleCommit) : List SingleCommit :=
  candidates.foldl (selectStep M) []

/-- Modelled from the spec: the candidate order of §4.5 Step 5 — commits of
low height from `getAllCommits` ascending, then the local index descending,
then the non-gossiped index descending. -/
def gossipCandidates (env : Env) (s : CommitPool) : List SingleCommit :=
  (getAllCommits s).filter
      (fun c => decide (c.height < env.maxHeightPrecommitted - COMMIT_RANGE_STORED)) ++
    CommitList.getAllDsc s.nonGossipedCommitsLocal ++
    CommitList.getAllDsc s.nonGossipedCommits

/-- The result of one job tick: the new pool state and the broadcast batch. -/
structure JobResult where
  pool : CommitPool
  broadcast : List SingleCommit
  deriving Repr

/-- Modelled from the spec: one tick of the pruning-and-gossip job (§4.5):
removal height, eviction, admissibility filter, bounded gossip selection,
promotion of the surviving non-gossiped and local commits into the gossiped
index, broadcast. -/
def job (env : Env) (pool : CommitPool) : Except CommitError JobResult :=
  match getMaxRemovalHeight env with
  | .error e => .error e
  | .ok r =>
    let s := jobSurvivors env r pool
    .ok { pool :=
            { nonGossipedCommits := []
              nonGossipedCommitsLocal := []
              gossipedCommits :=
                (s.nonGossipedCommits ++ s.nonGossipedCommitsLocal).foldl
                  CommitList.add s.gossipedCommits }
          broadcast := selectCommits (2 * env.currentValidators.length) (gossipCandidates env s) }

/-- First-occurrence-kept deduplication by commit identity. -/
def dedupFirst : List SingleCommit → List SingleCommit
  | [] => []
  | c :: cs => c :: dedupFirst (cs.filter (fun x => x != c))
termination_by l => l.length
decreasing_by
  simp only [List.length_cons]
  exact Nat.lt_succ_of_le (List.length_filter_le _ _)

/-- Two indices are key-disjoint when no commits share `(height, validatorAddress)`. -/
def keyDisjoint (l1 l2 : List SingleCommit) : Prop :=
  ∀ c1 ∈ l1, ∀ c2 ∈ l2, sameKey c1 c2 = false

/-- Invariant P1: the three indices are pairwise key-disjoint (§3, §8). -/
def pairwiseDisjoint (p : CommitPool) : Prop :=
  keyDisjoint p.nonGossipedCommits p.nonGossipedCommitsLocal ∧
  keyDisjoint p.nonGossipedCommits p.gossipedCommits ∧
  keyDisjoint p.nonGossipedCommitsLocal p.gossipedCommits

/-- A sequence of `addCommit` calls applied in order. -/
def applyCalls (p : CommitPool) (calls : List (SingleCommit × Bool)) : CommitPool :=
  calls.foldl (fun q cb => addCommit q cb.1 cb.2) p

/-! General lemmas about the embedding -/

theorem mem_foldl_add (l g : List SingleCommit) (x : SingleCommit)
    (hx : x ∈ l.foldl CommitList.add g) : x ∈ g ∨ x ∈ l := by
  induction l generalizing g with
  | nil => exact Or.inl hx
  | cons c cs ih =>
    simp only [List.foldl_cons] at hx
    rcases ih _ hx with h | h
    · by_cases hc : CommitList.exists_ g c = true
      · rw [CommitList.add, if_pos hc] at h
        exact Or.inl h
      · rw [CommitList.add, if_neg hc] at h
        rcases List.mem_append.mp h with h1 | h1
        · exact Or.inl h1
        · exact Or.inr (by simp at h1; simp [h1])
    · exact Or.inr (List.mem_cons_of_mem _ h)

theorem height_of_mem_evict (env : Env) (r : Nat) (l : List SingleCommit) (x : SingleCommit)
    (hx : x ∈ (jobEvict r l).filter (jobFilterKeep env)) : r < x.height := by
  have h1 : x ∈ jobEvict r l := (List.mem_filter.mp hx).1
  have h2 := (List.mem_filter.mp h1).2
  exact of_decide_eq_true h2

theorem keep_of_mem_survivor (env : Env) (r : Nat) (l : List SingleCommit) (x : SingleCommit)
    (hx : x ∈ (jobEvict r l).filter (jobFilterKeep env)) : jobFilterKeep env x = true :=
  (List.mem_filter.mp hx).2

theorem job_ok_elim (env : Env) (pool : CommitPool) (jr : JobResult) (r : Nat)
    (hjob : job env pool = .ok jr) (hr : getMaxRemovalHeight env = .ok r) :
    jr = { pool :=
             { nonGossipedCommits := []
               nonGossipedCommitsLocal := []
               gossipedCommits :=
                 ((jobSurvivors env r pool).nonGossipedCommits ++
                     (jobSurvivors env r pool).nonGossipedCommitsLocal).foldl
                   CommitList.add (jobSurvivors env r pool).gossipedCommits }
           broadcast :=
             selectCommits (2 * env.currentValidators.length)
               (gossipCandidates env (jobSurvivors env r pool)) } := by
  unfold job at hjob
  rw [hr] at hjob
  exact (Except.ok.inj hjob).symm

theorem inCommitRange_iff (env : Env) (h : Nat) :
    inCommitRange env h = true ↔
      (env.maxHeightCertified - COMMIT_RANGE_STORED ≤ h ∧ h ≤ env.maxHeightPrecommitted) := by
  simp [inCommitRange]

/-! Claim theorems -/

/-- C3: after one successful run of the pruning-and-gossip job, no commit with
height at or below the removal height (the `aggregateCommit.height` of the
header at the finalised height) remains in any of the three indices. -/
theorem job_prunes_below_removal (env : Env) (pool : CommitPool) (jr : JobResult) (r : Nat)
    (c : SingleCommit) (hjob : job env pool = .ok jr) (hr : getMaxRemovalHeight env = .ok r)
    (hc : c ∈ jr.pool.nonGossipedCommits ∨ c ∈ jr.pool.nonGossipedCommitsLocal ∨
      c ∈ jr.pool.gossipedCommits) : r < c.height := by
  have he := job_ok_elim env pool jr r hjob hr
  subst he
  rcases hc with h | h | h
  · simp at h
  · simp at h
  · simp only at h
    rcases mem_foldl_add _ _ _ h with hg | hng
    · exact height_of_mem_evict env r _ _ hg
    · rcases List.mem_append.mp hng with h1 | h1
      · exact height_of_mem_evict env r _ _ h1
      · exact height_of_mem_evict env r _ _ h1

/-- C4: after one successful run of the job, the `nonGossiped` index is empty. -/
theorem job_empties_nonGossiped (env : Env) (pool : CommitPool) (jr : JobResult)
    (hjob : job env pool = .ok jr) : jr.pool.nonGossipedCommits = [] := by
  cases hr : getMaxRemovalHeight env with
  | error e => unfold job at hjob; rw [hr] at hjob; cases hjob
  | ok r =>
    have he := job_ok_elim env pool jr r hjob hr
    subst he
    rfl

/-- C10: the admissibility re-check of the job is applied to the gossiped index as
well: a gossiped commit outside the stored commit range with no BFT
parameters at `height + 1` is removed from `gossiped` even when its height is
above the removal height. -/
theorem job_filters_gossiped_admissibility (env : Env) (pool : CommitPool) (jr : JobResult)
    (r : Nat) (c : SingleCommit) (hjob : job env pool = .ok jr)
    (hr : getMaxRemovalHeight env = .ok r) (hmem : c ∈ pool.gossipedCommits)
    (hht : r < c.height) (hrange : inCommitRange env c.height = false)
    (hbft : env.existBFTParameters (c.height + 1) = false) :
    c ∉ jr.pool.gossipedCommits := by
  have hkeep : jobFilterKeep env c = false := by
    rw [jobFilterKeep, hrange, hbft]
    rfl
  have he := job_ok_elim env pool jr r hjob hr
  subst he
  intro h
  simp only at h
  rcases mem_foldl_add _ _ _ h with hg | hng
  · rw [keep_of_mem_survivor env r _ _ hg] at hkeep
    cases hkeep
  · rcases List.mem_append.mp hng with h1 | h1
    · rw [keep_of_mem_survivor env r _ _ h1] at hkeep
      cases hkeep
    · rw [keep_of_mem_survivor env r _ _ h1] at hkeep
      cases hkeep

/-- C1: given that the other `validateCommit` checks pass (block-id binding,
not already known, height strictly above the removal height, validator
membership, valid BLS signature), `validateCommit` returns true iff the
commit height is in the window `[maxHeightCertified − COMMIT_RANGE_STORED,
maxHeightPrecommitted]` or BFT parameters exist at `height + 1`; outside the
window with no such parameters it returns false. -/
theorem validateCommit_window (env : Env) (pool : CommitPool) (c : SingleCommit)
    (hd : BlockHeader) (r : Nat) (v : Validator)
    (hhd : env.headers c.height = some hd)
    (hid : hd.id = c.blockID)
    (hkn : commitKnown pool c = false)
    (hr : getMaxRemovalHeight env = .ok r)
    (hgt : r < c.height)
    (hv : (env.getBFTParameters c.height).validators.find?
        (fun w => w.address == c.validatorAddress) = some v)
    (hsig : env.verifySingleSig (env.getValidatorBlsKey c.validatorAddress c.height)
        c.certificateSignature (computeCertificateFromBlockHeader hd) = true) :
    (validateCommit env pool c = .ok true ↔
      ((env.maxHeightCertified - COMMIT_RANGE_STORED ≤ c.height ∧
          c.height ≤ env.maxHeightPrecommitted) ∨
        env.existBFTParameters (c.height + 1) = true)) ∧
    (¬(env.maxHeightCertified - COMMIT_RANGE_STORED ≤ c.height ∧
        c.height ≤ env.maxHeightPrecommitted) →
      env.existBFTParameters (c.height + 1) = false →
      validateCommit env pool c = .ok false) := by
  have hnle : ¬c.height ≤ r := by omega
  cases hx : inCommitRange env c.height with
  | true =>
    have hrp := (inCommitRange_iff env c.height).mp hx
    have hval : validateCommit env pool c = .ok true := by
      unfold validateCommit
      rw [hhd]
      simp [hid, hkn, hr, hnle, hv, hsig, hx]
    rw [hval]
    exact ⟨⟨fun _ => Or.inl hrp, fun _ => rfl⟩, fun hno _ => absurd hrp hno⟩
  | false =>
    have hnp : ¬(env.maxHeightCertified - COMMIT_RANGE_STORED ≤ c.height ∧
        c.height ≤ env.maxHeightPrecommitted) := by
      intro hxx
      rw [(inCommitRange_iff env c.height).mpr hxx] at hx
      exact Bool.noConfusion hx
    cases hy : env.existBFTParameters (c.height + 1) with
    | true =>
      have hval : validateCommit env pool c = .ok true := by
        unfold validateCommit
        rw [hhd]
        simp [hid, hkn, hr, hnle, hv, hsig, hx, hy]
      rw [hval]
      exact ⟨⟨fun _ => Or.inr rfl, fun _ => rfl⟩, fun _ hf => Bool.noConfusion hf⟩
    | false =>
      have hval : validateCommit env pool c = .ok false := by
        unfold validateCommit
        rw [hhd]
        simp [hid, hkn, hr, hnle, hx, hy]
      rw [hval]
      refine ⟨⟨fun hcc => ?_, fun hcc => ?_⟩, fun _ _ => rfl⟩
      · exact Bool.noConfusion (Except.ok.inj hcc)
      · rcases hcc with hcc | hcc
        · exact absurd hcc hnp
        · exact Bool.noConfusion hcc

/-- C8: with all earlier checks passing, a commit whose validator is not in
the BFT validator set at its height makes `validateCommit` raise
`CommitValidatorNotActive`, and a commit failing BLS verification makes it
raise `CommitSignatureInvalid`; a commit already present in `gossiped` or in
`nonGossiped` makes `validateCommit` return false without raising. -/
theorem validateCommit_raises_and_known :
    (∀ (env : Env) (pool : CommitPool) (c : SingleCommit) (hd : BlockHeader) (r : Nat),
      env.headers c.height = some hd → hd.id = c.blockID → commitKnown pool c = false →
      getMaxRemovalHeight env = .ok r → r < c.height →
      (inCommitRange env c.height = true ∨ env.existBFTParameters (c.height + 1) = true) →
      (env.getBFTParameters c.height).validators.find?
          (fun w => w.address == c.validatorAddress) = none →
      validateCommit env pool c = .error .validatorNotActive) ∧
    (∀ (env : Env) (pool : CommitPool) (c : SingleCommit) (hd : BlockHeader) (r : Nat)
        (v : Validator),
      env.headers c.height = some hd → hd.id = c.blockID → commitKnown pool c = false →
      getMaxRemovalHeight env = .ok r → r < c.height →
      (inCommitRange env c.height = true ∨ env.existBFTParameters (c.height + 1) = true) →
      (env.getBFTParameters c.height).validators.find?
          (fun w => w.address == c.validatorAddress) = some v →
      env.verifySingleSig (env.getValidatorBlsKey c.validatorAddress c.height)
          c.certificateSignature (computeCertificateFromBlockHeader hd) = false →
      validateCommit env pool c = .error .signatureInvalid) ∧
    (∀ (env : Env) (pool : CommitPool) (c : SingleCommit),
      (CommitList.exists_ pool.gossipedCommits c = true ∨
        CommitList.exists_ pool.nonGossipedCommits c = true) →
      validateCommit env pool c = .ok false) := by
  refine ⟨?_, ?_, ?_⟩
  · intro env pool c hd r hhd hid hkn hr hgt hadm hv
    have hnle : ¬c.height ≤ r := by omega
    unfold validateCommit
    rw [hhd]
    rcases hadm with h | h
    · simp [hid, hkn, hr, hnle, hv, h]
    · simp [hid, hkn, hr, hnle, hv, h]
  · intro env pool c hd r v hhd hid hkn hr hgt hadm hv hsig
    have hnle : ¬c.height ≤ r := by omega
    unfold validateCommit
    rw [hhd]
    rcases hadm with h | h
    · simp [hid, hkn, hr, hnle, hv, hsig, h]
    · simp [hid, hkn, hr, hnle, hv, hsig, h]
  · intro env pool c hknown
    have hkn : commitKnown pool c = true := by
      rcases hknown with h | h <;> simp [commitKnown, h]
    unfold validateCommit
    cases hhd : env.headers c.height with
    | none => rfl
    | some hd =>
      by_cases hid : hd.id = c.blockID
      · simp [hid, hkn]
      · simp [hid]

/-- C2: `verifyAggregateCommit` returns false without raising when the
signature or the aggregation bits are empty, when the height is at or below
`maxHeightCertified`, above `maxHeightPrecommitted`, or strictly above
`heightNextBFTParameters − 1`; when all precondition checks pass (height at
most `heightNextBFTParameters − 1`, or no next BFT-parameter height exists)
the aggregate is verified against the aggregated BLS signature and the
threshold weight. -/
theorem verifyAggregateCommit_preconditions (env : Env) (ag : AggregateCommit) :
    ((ag.certificateSignature = 0 ∨ ag.aggregationBits = [] ∨
        ag.height ≤ env.maxHeightCertified ∨ env.maxHeightPrecommitted < ag.height ∨
        (∃ hn, env.getNextHeightBFTParameters (env.maxHeightCertified + 1) = some hn ∧
          hn - 1 < ag.height)) →
      verifyAggregateCommit env ag = .ok false) ∧
    (ag.certificateSignature ≠ 0 → ag.aggregationBits ≠ [] →
      env.maxHeightCertified < ag.height → ag.height ≤ env.maxHeightPrecommitted →
      (env.getNextHeightBFTParameters (env.maxHeightCertified + 1) = none ∨
        (∃ hn, env.getNextHeightBFTParameters (env.maxHeightCertified + 1) = some hn ∧
          ag.height ≤ hn - 1)) →
      verifyAggregateCommit env ag = verifyAggSigWeight env ag) := by
  constructor
  · intro hcase
    unfold verifyAggregateCommit
    rcases hcase with h | h | h | h | ⟨hn, hsome, hlt⟩
    · rw [if_pos (Or.inl h)]
    · rw [if_pos (Or.inr h)]
    · by_cases h0 : ag.certificateSignature = 0 ∨ ag.aggregationBits = []
      · rw [if_pos h0]
      · rw [if_neg h0, if_pos h]
    · by_cases h0 : ag.certificateSignature = 0 ∨ ag.aggregationBits = []
      · rw [if_pos h0]
      · by_cases h1 : ag.height ≤ env.maxHeightCertified
        · rw [if_neg h0, if_pos h1]
        · rw [if_neg h0, if_neg h1, if_pos h]
    · by_cases h0 : ag.certificateSignature = 0 ∨ ag.aggregationBits = []
      · rw [if_pos h0]
      · by_cases h1 : ag.height ≤ env.maxHeightCertified
        · rw [if_neg h0, if_pos h1]
        · by_cases h2 : env.maxHeightPrecommitted < ag.height
          · rw [if_neg h0, if_neg h1, if_pos h2]
          · rw [if_neg h0, if_neg h1, if_neg h2]
            simp only [hsome]
            rw [if_pos hlt]
  · intro h0 h1 h2 h3 h4
    unfold verifyAggregateCommit
    have hne : ¬(ag.certificateSignature = 0 ∨ ag.aggregationBits = []) := by
      intro hx
      rcases hx with hx | hx
      · exact h0 hx
      · exact h1 hx
    rw [if_neg hne, if_neg (Nat.not_le.mpr h2), if_neg (Nat.not_lt.mpr h3)]
    rcases h4 with hnone | ⟨hn, hsome, hle⟩
    · simp only [hnone]
    · simp only [hsome]
      rw [if_neg (Nat.not_lt.mpr hle)]

theorem sameKey_comm (a b : SingleCommit) : sameKey a b = sameKey b a := by
  unfold sameKey
  by_cases h1 : a.height = b.height
  · by_cases h2 : a.validatorAddress = b.validatorAddress
    · rw [h1, h2]
    · have e1 : (a.validatorAddress == b.validatorAddress) = false :=
        beq_eq_false_iff_ne.mpr h2
      have e2 : (b.validatorAddress == a.validatorAddress) = false :=
        beq_eq_false_iff_ne.mpr (Ne.symm h2)
      rw [e1, e2, Bool.and_false, Bool.and_false]
  · have e1 : (a.height == b.height) = false := beq_eq_false_iff_ne.mpr h1
    have e2 : (b.height == a.height) = false := beq_eq_false_iff_ne.mpr (Ne.symm h1)
    rw [e1, e2, Bool.false_and, Bool.false_and]

theorem exists_eq_false_iff (l : List SingleCommit) (c : SingleCommit) :
    CommitList.exists_ l c = false ↔ ∀ x ∈ l, sameKey x c = false := by
  simp [CommitList.exists_]

theorem addCommit_preserves_disjoint (p : CommitPool) (c : SingleCommit) (b : Bool)
    (hp : pairwiseDisjoint p) : pairwiseDisjoint (addCommit p c b) := by
  by_cases hk : commitKnown p c = true
  · unfold addCommit
    rw [if_pos hk]
    exact hp
  · have hkf : commitKnown p c = false := by
      cases h : commitKnown p c
      · rfl
      · exact absurd h hk
    have h3 : (CommitList.exists_ p.gossipedCommits c = false ∧
        CommitList.exists_ p.nonGossipedCommits c = false) ∧
        CommitList.exists_ p.nonGossipedCommitsLocal c = false := by
      simpa [commitKnown] using hkf
    obtain ⟨⟨hg, hng⟩, hloc⟩ := h3
    have hxg := (exists_eq_false_iff _ _).mp hg
    have hxng := (exists_eq_false_iff _ _).mp hng
    have hxloc := (exists_eq_false_iff _ _).mp hloc
    obtain ⟨d1, d2, d3⟩ := hp
    unfold addCommit
    rw [if_neg hk]
    cases b with
    | true =>
      rw [if_pos rfl]
      have hadd : CommitList.add p.nonGossipedCommitsLocal c =
          p.nonGossipedCommitsLocal ++ [c] := by
        rw [CommitList.add, if_neg (by simp [hloc])]
      refine ⟨?_, d2, ?_⟩
      · intro c1 h1 c2 h2
        simp only [hadd] at h2
        rcases List.mem_append.mp h2 with h2 | h2
        · exact d1 c1 h1 c2 h2
        · have he : c2 = c := by simpa using h2
          subst he
          exact hxng c1 h1
      · intro c1 h1 c2 h2
        simp only [hadd] at h1
        rcases List.mem_append.mp h1 with h1 | h1
        · exact d3 c1 h1 c2 h2
        · have he : c1 = c := by simpa using h1
          subst he
          rw [sameKey_comm]
          exact hxg c2 h2
    | false =>
      rw [if_neg (by simp)]
      have hadd : CommitList.add p.nonGossipedCommits c =
          p.nonGossipedCommits ++ [c] := by
        rw [CommitList.add, if_neg (by simp [hng])]
      refine ⟨?_, ?_, d3⟩
      · intro c1 h1 c2 h2
        simp only [hadd] at h1
        rcases List.mem_append.mp h1 with h1 | h1
        · exact d1 c1 h1 c2 h2
        · have he : c1 = c := by simpa using h1
          subst he
          rw [sameKey_comm]
          exact hxloc c2 h2
      · intro c1 h1 c2 h2
        simp only [hadd] at h1
        rcases List.mem_append.mp h1 with h1 | h1
        · exact d2 c1 h1 c2 h2
        · have he : c1 = c := by simpa using h1
          subst he
          rw [sameKey_comm]
          exact hxg c2 h2

/-- C6: any sequence of `addCommit` calls, with any values of the local flag,
keeps the three indices pairwise disjoint by `(height, validatorAddress)`,
and `addCommit` is a no-op whenever any index already contains the commit. -/
theorem addCommit_pairwise_disjoint :
    (∀ (p : CommitPool) (calls : List (SingleCommit × Bool)), pairwiseDisjoint p →
      pairwiseDisjoint (applyCalls p calls)) ∧
    (∀ (p : CommitPool) (c : SingleCommit) (b : Bool), commitKnown p c = true →
      addCommit p c b = p) := by
  constructor
  · intro p calls
    induction calls generalizing p with
    | nil => exact fun h => h
    | cons cb cbs ih =>
      intro hp
      exact ih _ (addCommit_preserves_disjoint _ _ _ hp)
  · intro p c b hk
    unfold addCommit
    rw [if_pos hk]

theorem resolvePairs_ok (vs : List Validator) (l : List SingleCommit) (p : List (Nat × Nat))
    (h : resolvePairs vs l = .ok p) :
    (∀ c ∈ l, (resolvePair vs c).isSome) ∧ p = l.filterMap (resolvePair vs) := by
  induction l generalizing p with
  | nil =>
    simp only [resolvePairs] at h
    have hp : p = [] := (Except.ok.inj h).symm
    subst hp
    simp
  | cons c cs ih =>
    simp only [resolvePairs] at h
    cases hc : resolvePair vs c with
    | none =>
      rw [hc] at h
      cases h
    | some pr =>
      rw [hc] at h
      cases hrec : resolvePairs vs cs with
      | error e =>
        rw [hrec] at h
        cases h
      | ok ps =>
        rw [hrec] at h
        have hp : p = pr :: ps := (Except.ok.inj h).symm
        obtain ⟨ha, hb⟩ := ih ps hrec
        constructor
        · intro x hx
          rcases List.mem_cons.mp hx with hx | hx
          · subst hx
            rw [hc]
            rfl
          · exact ha x hx
        · rw [hp, hb, List.filterMap_cons, hc]

theorem resolvePairs_of_all (vs : List Validator) (l : List SingleCommit)
    (h : ∀ c ∈ l, (resolvePair vs c).isSome) :
    resolvePairs vs l = .ok (l.filterMap (resolvePair vs)) := by
  induction l with
  | nil => rfl
  | cons c cs ih =>
    obtain ⟨pr, hpr⟩ := Option.isSome_iff_exists.mp (h c (List.mem_cons_self c cs))
    simp only [resolvePairs, hpr]
    rw [ih (fun x hx => h x (List.mem_cons_of_mem _ hx))]
    rw [List.filterMap_cons, hpr]

theorem perm_any (l1 l2 : List (Nat × Nat)) (f : Nat × Nat → Bool) (h : l1.Perm l2) :
    l1.any f = l2.any f := by
  induction h with
  | nil => rfl
  | cons x _ ih => simp [List.any_cons, ih]
  | swap x y l =>
    simp only [List.any_cons]
    rw [Bool.or_left_comm]
  | trans _ _ ih1 ih2 => rw [ih1, ih2]

theorem createAggSig_perm (keys : List Nat) (p1 p2 : List (Nat × Nat)) (h : p1.Perm p2) :
    createAggSig keys p1 = createAggSig keys p2 := by
  unfold createAggSig
  refine congrArg₂ Prod.mk ?_ ?_
  · exact List.map_congr_left (fun k _ => perm_any p1 p2 _ h)
  · exact Multiset.coe_eq_coe.mpr (h.map Prod.snd)

/-- C9: `aggregateSingleCommits` applied to any permutation of the same
non-empty list of single commits at one height produces the same
`AggregateCommit`: the key list handed to the abstract BLS aggregation
primitive is sorted deterministically and the aggregation result depends only
on the multiset of `(blsKey, signature)` pairs. -/
theorem aggregateSingleCommits_perm_invariant (env : Env) (l1 l2 : List SingleCommit)
    (H : Nat) (a : AggregateCommit) (hperm : l1.Perm l2)
    (hH : ∀ c ∈ l1, c.height = H)
    (h1 : aggregateSingleCommits env l1 = .ok a) :
    aggregateSingleCommits env l2 = .ok a := by
  cases l1 with
  | nil =>
    simp only [aggregateSingleCommits] at h1
    cases h1
  | cons c0 r1 =>
    cases l2 with
    | nil =>
      have hlen := hperm.length_eq
      simp at hlen
    | cons d0 r2 =>
      have hc0 : c0.height = H := hH c0 (List.mem_cons_self c0 r1)
      have hd0 : d0.height = H := hH d0 (hperm.mem_iff.mpr (List.mem_cons_self d0 r2))
      simp only [aggregateSingleCommits] at h1 ⊢
      rw [hc0] at h1
      rw [hd0]
      cases hres : resolvePairs (env.getBFTParameters H).validators (c0 :: r1) with
      | error e =>
        rw [hres] at h1
        cases h1
      | ok p1 =>
        rw [hres] at h1
        obtain ⟨hall, hp1⟩ := resolvePairs_ok _ _ p1 hres
        have hall2 : ∀ c ∈ d0 :: r2,
            (resolvePair (env.getBFTParameters H).validators c).isSome :=
          fun c hc => hall c (hperm.mem_iff.mpr hc)
        rw [resolvePairs_of_all _ _ hall2]
        have hperm2 : p1.Perm
            ((d0 :: r2).filterMap (resolvePair (env.getBFTParameters H).validators)) := by
          rw [hp1]
          exact hperm.filterMap _
        have hgoal :
            (Except.ok (AggregateCommit.mk H
                ((createAggSig
                  (CommitList.sortAsc
                    ((env.getBFTParameters H).validators.map (fun v => v.blsKey)))
                  ((d0 :: r2).filterMap
                    (resolvePair (env.getBFTParameters H).validators))).1)
                ((createAggSig
                  (CommitList.sortAsc
                    ((env.getBFTParameters H).validators.map (fun v => v.blsKey)))
                  ((d0 :: r2).filterMap
                    (resolvePair (env.getBFTParameters H).validators))).2)) :
              Except CommitError AggregateCommit) = Except.ok a := by
          rw [← createAggSig_perm
            (CommitList.sortAsc ((env.getBFTParameters H).validators.map (fun v => v.blsKey)))
            p1 _ hperm2]
          exact h1
        exact hgoal

theorem mem_getCommitsByHeight (pool : CommitPool) (h : Nat) (c : SingleCommit)
    (hc : c ∈ getCommitsByHeight pool h) : c.height = h := by
  unfold getCommitsByHeight at hc
  rcases List.mem_append.mp hc with hc | hc
  · rcases List.mem_append.mp hc with hc | hc
    · simpa using (List.mem_filter.mp hc).2
    · simpa using (List.mem_filter.mp hc).2
  · simpa using (List.mem_filter.mp hc).2

theorem aggregateSingleCommits_height (env : Env) (commits : List SingleCommit)
    (a : AggregateCommit) (h : aggregateSingleCommits env commits = .ok a) :
    ∃ c0, commits.head? = some c0 ∧ a.height = c0.height := by
  cases commits with
  | nil =>
    simp only [aggregateSingleCommits] at h
    cases h
  | cons c0 rest =>
    refine ⟨c0, rfl, ?_⟩
    simp only [aggregateSingleCommits] at h
    cases hres : resolvePairs (env.getBFTParameters c0.height).validators (c0 :: rest) with
    | error e =>
      rw [hres] at h
      cases h
    | ok pairs =>
      rw [hres] at h
      have := Except.ok.inj h
      rw [← this]

theorem selectLoop_none_iff (env : Env) (pool : CommitPool) (params : BFTParameters)
    (mhc : Nat) :
    ∀ h, (selectLoop env pool params mhc h = .ok none ↔
      ∀ h2, mhc < h2 → h2 ≤ h →
        aggregateWeight params (getCommitsByHeight pool h2) < params.certificateThreshold) := by
  intro h
  induction h using Nat.strong_induction_on with
  | _ h ih =>
    unfold selectLoop
    by_cases hlt : mhc < h
    · rw [dif_pos hlt]
      by_cases hth : params.certificateThreshold ≤
          aggregateWeight params (getCommitsByHeight pool h)
      · rw [if_pos hth]
        constructor
        · intro hcon
          exfalso
          cases hagg : aggregateSingleCommits env (getCommitsByHeight pool h) with
          | error e =>
            rw [hagg] at hcon
            simp [Except.map] at hcon
          | ok a =>
            rw [hagg] at hcon
            simp [Except.map] at hcon
        · intro hall
          exact absurd hth (Nat.not_le.mpr (hall h hlt (Nat.le_refl h)))
      · rw [if_neg hth]
        rw [ih (h - 1) (by omega)]
        constructor
        · intro hall h2 hgt hle
          by_cases he : h2 = h
          · subst he
            exact Nat.not_le.mp hth
          · exact hall h2 hgt (by omega)
        · intro hall h2 hgt hle
          exact hall h2 hgt (by omega)
    · rw [dif_neg hlt]
      constructor
      · intro _ h2 hgt hle
        omega
      · intro _
        rfl

theorem selectLoop_some_height (env : Env) (pool : CommitPool) (params : BFTParameters)
    (mhc : Nat) :
    ∀ h ag, selectLoop env pool params mhc h = .ok (some ag) → mhc < ag.height := by
  intro h
  induction h using Nat.strong_induction_on with
  | _ h ih =>
    intro ag hres
    unfold selectLoop at hres
    by_cases hlt : mhc < h
    · rw [dif_pos hlt] at hres
      by_cases hth : params.certificateThreshold ≤
          aggregateWeight params (getCommitsByHeight pool h)
      · rw [if_pos hth] at hres
        cases hagg : aggregateSingleCommits env (getCommitsByHeight pool h) with
        | error e =>
          rw [hagg] at hres
          simp [Except.map] at hres
        | ok a =>
          rw [hagg] at hres
          simp only [Except.map] at hres
          have ha : a = ag := by
            have := Except.ok.inj hres
            exact Option.some.inj this
          subst ha
          obtain ⟨c0, hc0, hh⟩ := aggregateSingleCommits_height env _ a hagg
          have hmem : c0 ∈ getCommitsByHeight pool h := by
            cases hl : getCommitsByHeight pool h with
            | nil =>
              rw [hl] at hc0
              cases hc0
            | cons x xs =>
              rw [hl] at hc0
              have hx : x = c0 := Option.some.inj hc0
              rw [← hx]
              exact List.mem_cons_self x xs
          rw [hh, mem_getCommitsByHeight pool h c0 hmem]
          exact hlt
      · rw [if_neg hth] at hres
        exact ih (h - 1) (by omega) ag hres
    · rw [dif_neg hlt] at hres
      simp at hres

/-- C7: `selectAggregateCommit` returns the sentinel aggregate
`{height: maxHeightCertified, bits: empty, sig: empty}` iff no height in the
interval `(maxHeightCertified, heightBound]` has commits whose summed
`bftWeight` reaches `certificateThreshold`, where `heightBound` is
`min(heightNextBFTParameters − 1, maxHeightPrecommitted)` and a missing next
BFT-parameter height gives `heightBound = maxHeightPrecommitted`. -/
theorem selectAggregateCommit_sentinel_iff (env : Env) (pool : CommitPool) :
    selectAggregateCommit env pool = .ok (sentinelAggregate env.maxHeightCertified) ↔
    ∀ h, env.maxHeightCertified < h → h ≤ heightBound env →
      aggregateWeight (env.getBFTParameters (heightBound env)) (getCommitsByHeight pool h) <
        (env.getBFTParameters (heightBound env)).certificateThreshold := by
  unfold selectAggregateCommit
  cases hres : selectLoop env pool (env.getBFTParameters (heightBound env))
      env.maxHeightCertified (heightBound env) with
  | error e =>
    constructor
    · intro hcon
      cases hcon
    · intro hall
      have hok := (selectLoop_none_iff env pool (env.getBFTParameters (heightBound env))
        env.maxHeightCertified (heightBound env)).mpr hall
      rw [hres] at hok
      cases hok
  | ok o =>
    cases o with
    | none =>
      constructor
      · intro _
        exact (selectLoop_none_iff env pool (env.getBFTParameters (heightBound env))
          env.maxHeightCertified (heightBound env)).mp hres
      · intro _
        rfl
    | some ag =>
      have hgt := selectLoop_some_height env pool (env.getBFTParameters (heightBound env))
        env.maxHeightCertified (heightBound env) ag hres
      constructor
      · intro hcon
        have hag : ag = sentinelAggregate env.maxHeightCertified := Except.ok.inj hcon
        rw [hag] at hgt
        simp [sentinelAggregate] at hgt
      · intro hall
        have hok := (selectLoop_none_iff env pool (env.getBFTParameters (heightBound env))
          env.maxHeightCertified (heightBound env)).mpr hall
        rw [hres] at hok
        simp at hok

theorem selectAux (M : Nat) (l : List SingleCommit) : ∀ acc : List SingleCommit,
    l.foldl (selectStep M) acc =
      acc ++ (dedupFirst (l.filter (fun x => decide (x ∉ acc)))).take (M - acc.length) := by
  induction l with
  | nil =>
    intro acc
    simp [dedupFirst]
  | cons c cs ih =>
    intro acc
    rw [List.foldl_cons]
    by_cases hM : M ≤ acc.length
    · have h0 : M - acc.length = 0 := by omega
      have hstep : selectStep M acc c = acc := by
        rw [selectStep, if_pos hM]
      rw [hstep, ih acc, h0]
      simp
    · by_cases hc : c ∈ acc
      · have hstep : selectStep M acc c = acc := by
          rw [selectStep, if_neg hM, if_pos hc]
        have hfil : (c :: cs).filter (fun x => decide (x ∉ acc)) =
            cs.filter (fun x => decide (x ∉ acc)) := by
          simp [List.filter_cons, hc]
        rw [hstep, ih acc, hfil]
      · have hstep : selectStep M acc c = acc ++ [c] := by
          rw [selectStep, if_neg hM, if_neg hc]
        have hfil : (c :: cs).filter (fun x => decide (x ∉ acc)) =
            c :: cs.filter (fun x => decide (x ∉ acc)) := by
          simp [List.filter_cons, hc]
        have hff : (cs.filter (fun x => decide (x ∉ acc))).filter (fun x => x != c) =
            cs.filter (fun x => decide (x ∉ acc ++ [c])) := by
          rw [List.filter_filter]
          apply List.filter_congr
          intro x _
          by_cases h1 : x = c
          · subst h1
            simp
          · by_cases h2 : x ∈ acc
            · simp [h1, h2]
            · simp [h1, h2]
        have hlen : M - acc.length = (M - (acc ++ [c]).length) + 1 := by
          simp only [List.length_append, List.length_cons, List.length_nil]
          omega
        rw [hstep, ih (acc ++ [c]), hfil, dedupFirst, hlen, List.take_succ_cons, hff,
          List.append_assoc]
        rfl

theorem selectCommits_eq (M : Nat) (l : List SingleCommit) :
    selectCommits M l = (dedupFirst l).take M := by
  unfold selectCommits
  rw [selectAux M l []]
  simp

theorem selectCommits_length_le (M : Nat) (l : List SingleCommit) :
    (selectCommits M l).length ≤ M := by
  rw [selectCommits_eq]
  exact List.length_take_le M (dedupFirst l)

/-- C5: the gossip batch of one job tick is the cap-bounded prefix, without
duplicates, of the candidate sequence built in this order: commits from
`getAllCommits` ascending whose height is below
`maxHeightPrecommitted − COMMIT_RANGE_STORED`, then the local commits in
descending height order, then the pre-promotion non-gossiped commits in
descending height order; its length never exceeds
`2 · |currentValidators|`. -/
theorem job_gossip_cap_and_order (env : Env) (pool : CommitPool) (jr : JobResult) (r : Nat)
    (hjob : job env pool = .ok jr) (hr : getMaxRemovalHeight env = .ok r) :
    jr.broadcast =
      (dedupFirst (gossipCandidates env (jobSurvivors env r pool))).take
        (2 * env.currentValidators.length) ∧
    jr.broadcast.length ≤ 2 * env.currentValidators.length := by
  have he := job_ok_elim env pool jr r hjob hr
  subst he
  exact ⟨selectCommits_eq _ _, selectCommits_length_le _ _⟩

/-! Concrete witnesses -/

/-- Header at the finalised height of the witness world; its aggregate commit
height (the removal height) is 3. -/
def hdrFinalW : BlockHeader := ⟨9, 2, 20, 0, 0, 3⟩

/-- Header at the witness commit height 5. -/
def hdrCommitW : BlockHeader := ⟨1, 5, 50, 0, 0, 0⟩

/-- Witness environment: heights 4/6, one validator, all signatures valid. -/
def envW : Env :=
  { finalizedHeight := 2
    headers := fun h => if h = 2 then some hdrFinalW else if h = 5 then some hdrCommitW else none
    maxHeightCertified := 4
    maxHeightPrecommitted := 6
    getBFTParameters := fun _ => ⟨1, [⟨10, 1, 7⟩]⟩
    existBFTParameters := fun _ => true
    getNextHeightBFTParameters := fun _ => none
    getValidatorBlsKey := fun _ _ => 7
    currentValidators := [1, 2]
    verifySingleSig := fun _ _ _ => true
    verifyAggSig := fun _ _ _ => true }

/-- Witness commit at height 5 from validator address 10. -/
def cW : SingleCommit := ⟨1, 5, 10, 100⟩

/-- A second witness commit at height 5 from validator address 11. -/
def c2W : SingleCommit := ⟨1, 5, 11, 101⟩

/-- The single validator of the witness environment. -/
def vW : Validator := ⟨10, 1, 7⟩

/-- The empty pool. -/
def emptyPoolW : CommitPool := ⟨[], [], []⟩

/-- A pool whose gossiped index holds the witness commit. -/
def poolBW : CommitPool := ⟨[], [], [cW]⟩

/-- The job result on the witness pool. -/
def jrW : JobResult := ((job envW poolBW).toOption).getD ⟨⟨[], [], []⟩, []⟩

/-- C1 witness: in the witness world the commit is inside the window, and
`validateCommit` accepts it. -/
theorem validateCommit_window_witness : validateCommit envW emptyPoolW cW = .ok true :=
  (validateCommit_window envW emptyPoolW cW hdrCommitW 3 vW rfl rfl rfl rfl (by decide)
    rfl rfl).1.mpr (Or.inl (by decide))

/-- Witness aggregate commit: height 5, non-empty bits and signature. -/
def agW : AggregateCommit := ⟨5, [true], (([101] : List Nat) : Multiset Nat)⟩

/-- C2 witness: the witness aggregate passes every precondition check and is
handed to the signature-and-weight verification. -/
theorem verifyAggregateCommit_preconditions_witness :
    verifyAggregateCommit envW agW = verifyAggSigWeight envW agW :=
  (verifyAggregateCommit_preconditions envW agW).2 (by decide) (by decide) (by decide)
    (by decide) (Or.inl rfl)

/-- C3 witness: the surviving witness commit sits strictly above the removal
height 3. -/
theorem job_prunes_below_removal_witness : 3 < cW.height :=
  job_prunes_below_removal envW poolBW jrW 3 cW rfl rfl (Or.inr (Or.inr (by decide)))

/-- C4 witness: after the job tick on the witness pool, `nonGossiped` is empty. -/
theorem job_empties_nonGossiped_witness : jrW.pool.nonGossipedCommits = [] :=
  job_empties_nonGossiped envW poolBW jrW rfl

/-- C5 witness: the witness broadcast equals the capped deduplicated candidate
prefix and respects the cap `2 · |currentValidators| = 4`. -/
theorem job_gossip_cap_and_order_witness :
    jrW.broadcast =
      (dedupFirst (gossipCandidates envW (jobSurvivors envW 3 poolBW))).take
        (2 * envW.currentValidators.length) ∧
    jrW.broadcast.length ≤ 2 * envW.currentValidators.length :=
  job_gossip_cap_and_order envW poolBW jrW 3 rfl rfl

/-- C6 witness: two `addCommit` calls on the empty pool keep pairwise
disjointness, and adding an already-known commit is a no-op. -/
theorem addCommit_pairwise_disjoint_witness :
    pairwiseDisjoint (applyCalls emptyPoolW [(cW, false), (c2W, true)]) ∧
    addCommit poolBW cW false = poolBW :=
  ⟨addCommit_pairwise_disjoint.1 emptyPoolW [(cW, false), (c2W, true)]
      (by refine ⟨?_, ?_, ?_⟩ <;> intro c1 h1 c2 h2 <;> cases h1),
   addCommit_pairwise_disjoint.2 poolBW cW false rfl⟩

/-- C7 witness: with an empty pool no height reaches threshold weight, so the
selector returns the sentinel. -/
theorem selectAggregateCommit_sentinel_iff_witness :
    selectAggregateCommit envW emptyPoolW = .ok (sentinelAggregate envW.maxHeightCertified) :=
  (selectAggregateCommit_sentinel_iff envW emptyPoolW).mpr
    (fun _ _ _ => Nat.zero_lt_one)

/-- Environment whose validator set at the commit height misses the commit
validator. -/
def envNA : Env := { envW with getBFTParameters := fun _ => ⟨1, [⟨11, 1, 7⟩]⟩ }

/-- Environment whose BLS verification fails. -/
def envSI : Env := { envW with verifySingleSig := fun _ _ _ => false }

/-- C8 witness: the membership raise, the signature raise, and the
false-returning already-known rejection, each at a concrete input. -/
theorem validateCommit_raises_and_known_witness :
    validateCommit envNA emptyPoolW cW = .error .validatorNotActive ∧
    validateCommit envSI emptyPoolW cW = .error .signatureInvalid ∧
    validateCommit envW poolBW cW = .ok false :=
  ⟨validateCommit_raises_and_known.1 envNA emptyPoolW cW hdrCommitW 3 rfl rfl rfl rfl
      (by decide) (Or.inl rfl) rfl,
   validateCommit_raises_and_known.2.1 envSI emptyPoolW cW hdrCommitW 3 vW rfl rfl rfl rfl
      (by decide) (Or.inl rfl) rfl rfl,
   validateCommit_raises_and_known.2.2 envW poolBW cW (Or.inl rfl)⟩

/-- Environment with two validators at the aggregation height. -/
def envAg : Env := { envW with getBFTParameters := fun _ => ⟨1, [⟨10, 1, 7⟩, ⟨11, 1, 8⟩]⟩ }

/-- The aggregate of the two witness commits in one order. -/
def aggW : AggregateCommit := ((aggregateSingleCommits envAg [cW, c2W]).toOption).getD ⟨0, [], 0⟩

/-- C9 witness: swapping the two witness commits yields the same aggregate. -/
theorem aggregateSingleCommits_perm_invariant_witness :
    aggregateSingleCommits envAg [c2W, cW] = .ok aggW :=
  aggregateSingleCommits_perm_invariant envAg [cW, c2W] [c2W, cW] 5 aggW
    (List.Perm.swap c2W cW []) (by decide) rfl

/-- Environment with no BFT parameters at any next height. -/
def envNB : Env := { envW with existBFTParameters := fun _ => false }

/-- A gossiped commit above the removal height but outside the window. -/
def cXW : SingleCommit := ⟨1, 7, 12, 103⟩

/-- A pool gossiping only that commit. -/
def poolXW : CommitPool := ⟨[], [], [cXW]⟩

/-- The job result on that pool with no upcoming parameter change. -/
def jrXW : JobResult := ((job envNB poolXW).toOption).getD ⟨⟨[], [], []⟩, []⟩

/-- C10 witness: the job removes the out-of-window gossiped commit even though
its height 7 is above the removal height 3. -/
theorem job_filters_gossiped_admissibility_witness : cXW ∉ jrXW.pool.gossipedCommits :=
  job_filters_gossiped_admissibility envNB poolXW jrXW 3 cXW rfl rfl (by decide) (by decide)
    rfl rfl

end Lisk

